import Mathlib

/-!
A shallow embedding of `src/pagerank-pomme.py` and proofs about it.

Conventions of the embedding:
* Python pages (strings) are represented by natural numbers; a corpus
  (a Python dict mapping each page to its set of outbound links) is a
  `Corpus`: the list of its keys in dict iteration order, together with a
  function giving each page's outbound link set, represented as a
  duplicate-free list.
* Python float arithmetic is modelled by exact rational arithmetic (`ℚ`).
* The pomegranate Bayesian network built by `transition_model` is embedded
  structurally: the conditional probability table is the literal list of
  rows the Python code appends, `model.probability [[branch, item]]` is the
  prior of the branch times the table lookup, exactly as the two-node
  network evaluates a full assignment.
* `random.choices` in `sample_pagerank` is abstracted by an oracle
  `draws : ℕ → ℕ` giving the page drawn at each step; the weights passed to
  `random.choices` only shape the distribution of those draws, never the
  arithmetic performed on them, and every drawn page is a corpus key.
* A Python run that raises (IndexError on `random.choice` of an empty list,
  ZeroDivisionError on `value / n` with `n = 0`, ValueError on `max([])`
  when `iterate_pagerank` reaches its first convergence check on an empty
  corpus) or that never returns is modelled as `none`; the unbounded
  `while True` loop of `iterate_pagerank` is run on explicit fuel, and
  termination claims are existential in the fuel.
-/

/-- A link graph: the dict's keys in iteration order, and each page's
outbound link set (a Python `set`, hence represented duplicate-free). -/
structure Corpus where
  keys : List ℕ
  links : ℕ → List ℕ

namespace PageRank

/-- Number of corpus pages, `len(corpus)`. -/
def csize (corpus : Corpus) : ℕ := corpus.keys.length

/-- The rows of the conditional probability table built by the two loops of
`transition_model`: first one `"damping"` row per corpus page (probability
`1/len(corpus[page])` for linked pages, `0` otherwise), then one
`"non-damping"` row per corpus page with probability `1/len(corpus)`. -/
def probsTable (corpus : Corpus) (page : ℕ) : List (String × ℕ × ℚ) :=
  corpus.keys.map (fun item =>
    ("damping", item,
      if item ∈ corpus.links page then (1 : ℚ) / (corpus.links page).length else 0))
  ++ corpus.keys.map (fun item => ("non-damping", item, (1 : ℚ) / csize corpus))

/-- The `start` node's `DiscreteDistribution`:
probability `damping_factor` for `"damping"`, `1 - damping_factor` for
`"non-damping"`. -/
def startDist (d : ℚ) : String → ℚ :=
  fun s => if s = "damping" then d else if s = "non-damping" then 1 - d else 0

/-- Lookup of a `(branch, item)` row in a conditional probability table:
the probability of the first matching row, `0` when no row matches. -/
def cptProb (table : List (String × ℕ × ℚ)) (branch : String) (item : ℕ) : ℚ :=
  match table.find? (fun r => r.1 = branch ∧ r.2.1 = item) with
  | some r => r.2.2
  | none => 0

/-- `model.probability [[branch, item]]` on the baked two-node network:
the joint probability of the full assignment, i.e. the prior of the branch
times the conditional probability of `item` given the branch. -/
def modelProbability (corpus : Corpus) (page : ℕ) (d : ℚ)
    (branch : String) (item : ℕ) : ℚ :=
  startDist d branch * cptProb (probsTable corpus page) branch item

/-- `transition_model(corpus, page, damping_factor)`: each page's entry is
the sum of the joint probabilities of the two branches. -/
def transition_model (corpus : Corpus) (page : ℕ) (d : ℚ) : ℕ → ℚ :=
  fun item =>
    modelProbability corpus page d "damping" item +
    modelProbability corpus page d "non-damping" item

/-- The total probability mass `transition_model` returns, summed over the
corpus pages (the keys of the returned dict). -/
def transSum (corpus : Corpus) (page : ℕ) (d : ℚ) : ℚ :=
  (corpus.keys.map (transition_model corpus page d)).sum

/-- How many of the first `n` draws hit `item`: the final value of
`samples[item]` in `sample_pagerank`. -/
def countVisits (draws : ℕ → ℕ) (n : ℕ) (item : ℕ) : ℕ :=
  ((List.range n).filter (fun i => draws i = item)).length

/-- `sample_pagerank(corpus, damping_factor, n)`, with the random draws
supplied by the oracle `draws`.  `none` models a raised exception: the
initial `random.choice(list(corpus))` on an empty corpus, or the final
`value / n` division when `n = 0`.  For `n < 0` the sampling loop
`for _ in range(n)` runs zero times and the function returns normally. -/
def sample_pagerank (corpus : Corpus) (d : ℚ) (n : ℤ) (draws : ℕ → ℕ) :
    Option (ℕ → ℚ) :=
  if corpus.keys = [] then none
  else if n = 0 then none
  else some fun item =>
    if item ∈ corpus.keys then (countVisits draws n.toNat item : ℚ) / (n : ℚ) else 0

/-- The inner accumulation of `iterate_pagerank`: starting from `rank = 0`,
for every corpus key add `pagerank[key] / N` if the key has no links and
`pagerank[key] / len(links)` if `page` is among its links. -/
def rankSum (corpus : Corpus) (v : ℕ → ℚ) (page : ℕ) : ℚ :=
  (corpus.keys.map (fun key =>
    (if (corpus.links key).length = 0 then v key / csize corpus else 0) +
    (if page ∈ corpus.links key then v key / (corpus.links key).length else 0))).sum

/-- The assignment `pagerank[page] = (1 - damping_factor) + damping_factor * rank`
performed for one page, reading the vector `v`. -/
def pageUpdate (corpus : Corpus) (d : ℚ) (v : ℕ → ℚ) (page : ℕ) : ℚ :=
  (1 - d) + d * rankSum corpus v page

/-- One pass of `for page in corpus:` over the pages in `order`, updating the
dict in place: each page's new value is computed from the vector as it
stands at that moment. -/
def sweepList (corpus : Corpus) (d : ℚ) (order : List ℕ) (v : ℕ → ℚ) : ℕ → ℚ :=
  order.foldl (fun w page => Function.update w page (pageUpdate corpus d w page)) v

/-- One full iteration of the `while True:` body's `for page in corpus:` loop. -/
def sweep (corpus : Corpus) (d : ℚ) (v : ℕ → ℚ) : ℕ → ℚ :=
  sweepList corpus d corpus.keys v

/-- `max([abs(pagerank_prev[key] - item) for key, item in pagerank.items()])`.
All entries are absolute values, so folding `max` from `0` agrees with
Python's `max` on the (non-empty) list. -/
def maxDiff (corpus : Corpus) (v prev : ℕ → ℚ) : ℚ :=
  (corpus.keys.map (fun key => |prev key - v key|)).foldr max 0

/-- The `while True:` loop of `iterate_pagerank`, on explicit fuel: sweep the
vector in place, stop when the maximum absolute difference against the
vector recorded at the previous check falls below `0.001`, otherwise record
the new vector and continue.  `none` means the fuel ran out. -/
def iterLoop (corpus : Corpus) (d : ℚ) :
    ℕ → (ℕ → ℚ) → (ℕ → ℚ) → Option (ℕ → ℚ)
  | 0, _, _ => none
  | fuel + 1, v, prev =>
    let v2 := sweep corpus d v
    if maxDiff corpus v2 prev < 1 / 1000 then some v2
    else iterLoop corpus d fuel v2 v2

/-- `iterate_pagerank(corpus, damping_factor)`: start every page at `1/N`
with `pagerank_prev` all zero, run the loop, and divide the final vector by
`N`.  `none` models either the ValueError raised by `max([])` at the first
convergence check on an empty corpus (the `1/N` initialization loop body
never runs for an empty dict) or exhaustion of the fuel. -/
def iterate_pagerank (corpus : Corpus) (d : ℚ) (fuel : ℕ) : Option (ℕ → ℚ) :=
  if corpus.keys = [] then none
  else
    (iterLoop corpus d fuel
        (fun item => if item ∈ corpus.keys then (1 : ℚ) / csize corpus else 0)
        (fun _ => 0)).map
      (fun v => fun item => if item ∈ corpus.keys then v item / csize corpus else 0)

/-- Modelled from the spec: the per-page PageRank expression
`rank(p) = (1 - damping)/N + damping * sum_over_q_linking_to_p(rank(q)/outdegree(q))`,
with a dangling page `q` contributing `rank(q)/N` to every page's sum.
Stated here only to be compared against the update the code performs. -/
def specUpdate (corpus : Corpus) (d : ℚ) (v : ℕ → ℚ) (page : ℕ) : ℚ :=
  (1 - d) / csize corpus +
    d * (corpus.keys.map (fun q =>
      if (corpus.links q).length = 0 then v q / csize corpus
      else if page ∈ corpus.links q then v q / (corpus.links q).length
      else 0)).sum

/-- The two-page example corpus `{1: {2}, 2: {1}}`. -/
def ex2 : Corpus :=
  ⟨[1, 2], fun p => if p = 1 then [2] else if p = 2 then [1] else []⟩

/-- A corpus with a dangling page: `{1: {}, 2: {1}}`. -/
def exDangling : Corpus :=
  ⟨[1, 2], fun p => if p = 2 then [1] else []⟩

/-- A fixed draw oracle for witnesses: always draws page `1`. -/
def exDraws : ℕ → ℕ := fun _ => 1

/-! ### Lemmas about the conditional probability table -/

lemma find?_row (b : String) (f : ℕ → ℚ) (ks : List ℕ) (item : ℕ) :
    (ks.map fun x => (b, x, f x)).find? (fun r => r.1 = b ∧ r.2.1 = item) =
      if item ∈ ks then some (b, item, f item) else none := by
  induction ks with
  | nil => rfl
  | cons a t ih =>
    by_cases h : a = item
    · subst h
      rw [List.map_cons, List.find?_cons_of_pos _ (by simp)]
      simp
    · rw [List.map_cons, List.find?_cons_of_neg _ (by simp [h]), ih]
      simp [Ne.symm h]

lemma find?_row_ne (b b' : String) (hb : b ≠ b') (f : ℕ → ℚ) (ks : List ℕ)
    (item : ℕ) :
    (ks.map fun x => (b, x, f x)).find? (fun r => r.1 = b' ∧ r.2.1 = item) = none := by
  rw [List.find?_eq_none]
  intro x hx
  simp only [List.mem_map] at hx
  obtain ⟨y, -, rfl⟩ := hx
  simp [hb]

lemma cptProb_damping (corpus : Corpus) (page item : ℕ) :
    cptProb (probsTable corpus page) "damping" item =
      if item ∈ corpus.keys then
        (if item ∈ corpus.links page then (1 : ℚ) / (corpus.links page).length else 0)
      else 0 := by
  unfold cptProb probsTable
  rw [List.find?_append, find?_row, find?_row_ne "non-damping" "damping" (by decide)]
  by_cases h : item ∈ corpus.keys <;> simp [h]

lemma cptProb_nondamping (corpus : Corpus) (page item : ℕ) :
    cptProb (probsTable corpus page) "non-damping" item =
      if item ∈ corpus.keys then (1 : ℚ) / csize corpus else 0 := by
  unfold cptProb probsTable
  rw [List.find?_append, find?_row, find?_row_ne "damping" "non-damping" (by decide)]
  by_cases h : item ∈ corpus.keys <;> simp [h]

/-- Closed form of the Bayesian-network computation: for a corpus page, the
returned entry is the additive mixture of the two branches. -/
lemma transition_model_eq (corpus : Corpus) (page : ℕ) (d : ℚ) (item : ℕ)
    (h : item ∈ corpus.keys) :
    transition_model corpus page d item =
      d * (if item ∈ corpus.links page then (1 : ℚ) / (corpus.links page).length else 0) +
      (1 - d) * (1 / csize corpus) := by
  have hs1 : startDist d "damping" = d := by simp [startDist]
  have hs2 : startDist d "non-damping" = 1 - d := by simp [startDist]
  unfold transition_model modelProbability
  rw [cptProb_damping, cptProb_nondamping, if_pos h, if_pos h, hs1, hs2]

lemma transSum_eq_of_mem (corpus : Corpus) (page : ℕ) (d : ℚ)
    (hk : corpus.keys.Nodup) :
    transSum corpus page d =
      d * (corpus.keys.toFinset.filter (· ∈ corpus.links page)).card *
          ((1 : ℚ) / (corpus.links page).length) +
        csize corpus * ((1 - d) * (1 / csize corpus)) := by
  unfold transSum
  rw [← List.sum_toFinset _ hk]
  rw [Finset.sum_congr rfl (fun item hitem =>
    transition_model_eq corpus page d item (List.mem_toFinset.mp hitem))]
  rw [Finset.sum_add_distrib, ← Finset.mul_sum, ← Finset.sum_filter, Finset.sum_const,
    Finset.sum_const, List.toFinset_card_of_nodup hk, nsmul_eq_mul, nsmul_eq_mul]
  unfold csize
  ring

lemma card_filter_links (corpus : Corpus) (page : ℕ)
    (hl : (corpus.links page).Nodup)
    (hsub : ∀ q ∈ corpus.links page, q ∈ corpus.keys) :
    (corpus.keys.toFinset.filter (· ∈ corpus.links page)).card =
      (corpus.links page).length := by
  have he : corpus.keys.toFinset.filter (· ∈ corpus.links page) =
      (corpus.links page).toFinset := by
    ext x
    simp only [Finset.mem_filter, List.mem_toFinset]
    exact ⟨fun h => h.2, fun h => ⟨hsub x h, h⟩⟩
  rw [he, List.toFinset_card_of_nodup hl]

lemma csize_cast_ne_zero (corpus : Corpus) (hne : corpus.keys ≠ []) :
    (csize corpus : ℚ) ≠ 0 := by
  have : corpus.keys.length ≠ 0 := fun h => hne (List.length_eq_zero.mp h)
  exact_mod_cast this

/-- The two branches of the total mass returned by `transition_model`: `1`
for a page with outbound links, `1 - d` for a dangling page. -/
lemma transSum_branches (corpus : Corpus) (page : ℕ) (d : ℚ)
    (hk : corpus.keys.Nodup) (hne : corpus.keys ≠ [])
    (hl : (corpus.links page).Nodup)
    (hsub : ∀ q ∈ corpus.links page, q ∈ corpus.keys) :
    (corpus.links page ≠ [] → transSum corpus page d = 1) ∧
    (corpus.links page = [] → transSum corpus page d = 1 - d) := by
  have hN : (csize corpus : ℚ) ≠ 0 := csize_cast_ne_zero corpus hne
  rw [transSum_eq_of_mem corpus page d hk, card_filter_links corpus page hl hsub]
  constructor
  · intro hlinks
    have hlen : ((corpus.links page).length : ℚ) ≠ 0 := by
      have : (corpus.links page).length ≠ 0 :=
        fun h => hlinks (List.length_eq_zero.mp h)
      exact_mod_cast this
    field_simp
  · intro hlinks
    rw [hlinks]
    simp only [List.length_nil, Nat.cast_zero]
    field_simp

/-- C1 (corrected, counterexample): on the valid corpus `{1: {}, 2: {1}}`
with damping `0.85`, the values returned by `transition_model` for the
dangling page `1` do not sum to `1.0`. -/
theorem C1_counterexample : transSum exDangling 1 (17 / 20) ≠ 1 := by
  have h := (transSum_branches exDangling 1 (17 / 20) (by decide) (by decide)
    (by decide) (by decide)).2 rfl
  rw [h]
  norm_num

/-- C1 (amended): for every valid input, the distribution returned by
`transition_model` sums to `1.0` whenever the given page has at least one
outbound link; for a dangling page the damping branch contributes no mass
and the values sum to `1 - damping` instead of `1.0`. -/
theorem C1_transSum_amended (corpus : Corpus) (page : ℕ) (d : ℚ)
    (hk : corpus.keys.Nodup) (hne : corpus.keys ≠ [])
    (hl : (corpus.links page).Nodup)
    (hsub : ∀ q ∈ corpus.links page, q ∈ corpus.keys)
    (hpage : page ∈ corpus.keys) (hd0 : 0 ≤ d) (hd1 : d ≤ 1) :
    (corpus.links page ≠ [] → transSum corpus page d = 1) ∧
    (corpus.links page = [] → transSum corpus page d = 1 - d) :=
  transSum_branches corpus page d hk hne hl hsub

/-- C1 witness: on `{1: {2}, 2: {1}}` with damping `0.85`, page `1` has an
outbound link and the returned distribution sums to `1.0`. -/
theorem C1_witness : transSum ex2 1 (17 / 20) = 1 :=
  (C1_transSum_amended ex2 1 (17 / 20) (by decide) (by decide) (by decide)
    (by decide) (by decide) (by norm_num) (by norm_num)).1 (by decide)

/-- C5: for a page with a non-empty outbound link set, the probability
assigned to each corpus page is `damping * (1/|links(page)|` if linked,
else `0)` plus `(1 - damping) * (1/N)`: the additive mixture of the
link-following branch and the teleportation branch. -/
theorem C5_transition_mixture (corpus : Corpus) (page : ℕ) (d : ℚ) (item : ℕ)
    (hitem : item ∈ corpus.keys) (hpage : page ∈ corpus.keys)
    (hnl : corpus.links page ≠ []) (hd0 : 0 ≤ d) (hd1 : d ≤ 1) :
    transition_model corpus page d item =
      d * (if item ∈ corpus.links page then (1 : ℚ) / (corpus.links page).length else 0) +
      (1 - d) * (1 / csize corpus) :=
  transition_model_eq corpus page d item hitem

/-- C5 witness: on `{1: {2}, 2: {1}}` with damping `0.85`, current page `1`,
the entry for page `2` equals the mixture formula. -/
theorem C5_witness :
    transition_model ex2 1 (17 / 20) 2 =
      (17 / 20) * (if 2 ∈ ex2.links 1 then (1 : ℚ) / (ex2.links 1).length else 0) +
      (1 - 17 / 20) * (1 / csize ex2) :=
  C5_transition_mixture ex2 1 (17 / 20) 2 (by decide) (by decide) (by decide)
    (by norm_num) (by norm_num)

/-- C8: with damping factor `0`, `transition_model` collapses to the uniform
distribution: every corpus page receives exactly `1/N`, whatever the link
structure of the current page. -/
theorem C8_damping_zero_uniform (corpus : Corpus) (page : ℕ) (item : ℕ)
    (hpage : page ∈ corpus.keys) (hitem : item ∈ corpus.keys) :
    transition_model corpus page 0 item = 1 / csize corpus := by
  rw [transition_model_eq corpus page 0 item hitem]
  ring

/-- C8 witness: on the dangling-page corpus `{1: {}, 2: {1}}` with damping
`0`, the dangling current page `1` still yields `1/N` for page `2`. -/
theorem C8_witness : transition_model exDangling 1 0 2 = 1 / csize exDangling :=
  C8_damping_zero_uniform exDangling 1 2 (by decide) (by decide)

/-- C10: for a dangling page the damping branch contributes zero mass, so
`transition_model` assigns exactly `(1 - damping)/N` to every corpus page
and the returned values sum to `1 - damping` rather than `1.0`. -/
theorem C10_dangling_teleport_only (corpus : Corpus) (page : ℕ) (d : ℚ)
    (hk : corpus.keys.Nodup) (hne : corpus.keys ≠ [])
    (hdangling : corpus.links page = []) (hd0 : 0 ≤ d) (hd1 : d ≤ 1) :
    (∀ item ∈ corpus.keys,
      transition_model corpus page d item = (1 - d) / csize corpus) ∧
    transSum corpus page d = 1 - d := by
  constructor
  · intro item hitem
    rw [transition_model_eq corpus page d item hitem, hdangling]
    simp only [List.not_mem_nil, if_false]
    ring
  · exact (transSum_branches corpus page d hk hne
      (by rw [hdangling]; exact List.nodup_nil)
      (by rw [hdangling]; intro q hq; cases hq)).2 hdangling

/-- C10 witness: on `{1: {}, 2: {1}}` with damping `0.85`, every page gets
`(1 - 0.85)/2` from the dangling page `1` and the mass sums to `0.15`. -/
theorem C10_witness :
    (∀ item ∈ exDangling.keys,
      transition_model exDangling 1 (17 / 20) item = (1 - 17 / 20) / csize exDangling) ∧
    transSum exDangling 1 (17 / 20) = 1 - 17 / 20 :=
  C10_dangling_teleport_only exDangling 1 (17 / 20) (by decide) (by decide) rfl
    (by norm_num) (by norm_num)

/-! ### Lemmas about the sampling estimator -/

lemma countVisits_zero (draws : ℕ → ℕ) (item : ℕ) : countVisits draws 0 item = 0 := rfl

lemma countVisits_succ (draws : ℕ → ℕ) (m item : ℕ) :
    countVisits draws (m + 1) item =
      countVisits draws m item + (if draws m = item then 1 else 0) := by
  unfold countVisits
  rw [List.range_succ, List.filter_append, List.length_append]
  by_cases h : draws m = item <;> simp [h]

lemma countVisits_one (draws : ℕ → ℕ) (item : ℕ) :
    countVisits draws 1 item = if draws 0 = item then 1 else 0 := by
  rw [show (1 : ℕ) = 0 + 1 from rfl, countVisits_succ, countVisits_zero, Nat.zero_add]

/-- Each sample falls on exactly one corpus page, so the visit counts
partition the `n` samples. -/
lemma sum_countVisits (corpus : Corpus) (draws : ℕ → ℕ) (n : ℕ)
    (hk : corpus.keys.Nodup) (hdraws : ∀ i, draws i ∈ corpus.keys) :
    (corpus.keys.map (fun item => countVisits draws n item)).sum = n := by
  induction n with
  | zero => simp [countVisits_zero]
  | succ m ih =>
    have hmap : corpus.keys.map (fun item => countVisits draws (m + 1) item) =
        corpus.keys.map (fun item =>
          countVisits draws m item + (if draws m = item then 1 else 0)) :=
      List.map_congr_left (fun item _ => countVisits_succ draws m item)
    have hsplit :
        (corpus.keys.map (fun item =>
          countVisits draws m item + (if draws m = item then 1 else 0))).sum =
        (corpus.keys.map (fun item => countVisits draws m item)).sum +
        (corpus.keys.map (fun item => if draws m = item then 1 else 0)).sum := by
      induction corpus.keys with
      | nil => rfl
      | cons a t iht => simp only [List.map_cons, List.sum_cons, iht]; ring
    have hone : (corpus.keys.map (fun item => if draws m = item then 1 else 0)).sum = 1 := by
      rw [← List.sum_toFinset _ hk, Finset.sum_ite_eq corpus.keys.toFinset (draws m)
        (fun _ => 1), if_pos (List.mem_toFinset.mpr (hdraws m))]
    rw [hmap, hsplit, ih, hone]

/-- C6: for a non-empty corpus, damping in `[0,1]` and `n ≥ 1`, the vector
returned by `sample_pagerank` gives each corpus page its visit count divided
by `n`, the entries over the corpus sum to exactly `1.0`, and for `n = 1`
the single sampled page has rank `1.0` while every other page has rank `0`.
The oracle `draws` supplies the pages returned by `random.choices`; each is
a corpus key. -/
theorem C6_sample_partition (corpus : Corpus) (d : ℚ) (n : ℤ) (draws : ℕ → ℕ)
    (hk : corpus.keys.Nodup) (hne : corpus.keys ≠ [])
    (hd0 : 0 ≤ d) (hd1 : d ≤ 1) (hn : 1 ≤ n)
    (hdraws : ∀ i, draws i ∈ corpus.keys) :
    ∃ f, sample_pagerank corpus d n draws = some f ∧
      (∀ item ∈ corpus.keys, f item = (countVisits draws n.toNat item : ℚ) / n) ∧
      (corpus.keys.map f).sum = 1 ∧
      (n = 1 → f (draws 0) = 1 ∧
        ∀ q ∈ corpus.keys, q ≠ draws 0 → f q = 0) := by
  have hn0 : n ≠ 0 := by omega
  refine ⟨fun item => if item ∈ corpus.keys
      then (countVisits draws n.toNat item : ℚ) / (n : ℚ) else 0, ?_, ?_, ?_, ?_⟩
  · unfold sample_pagerank
    rw [if_neg hne, if_neg hn0]
  · intro item hitem
    simp only [if_pos hitem]
  · have hcast : ((n.toNat : ℕ) : ℚ) = (n : ℚ) := by
      rw [← Int.cast_natCast, Int.toNat_of_nonneg (by omega)]
    have hnq : (n : ℚ) ≠ 0 := by
      intro h
      exact hn0 (by exact_mod_cast h)
    have hmap : corpus.keys.map (fun item => if item ∈ corpus.keys
        then (countVisits draws n.toNat item : ℚ) / (n : ℚ) else 0) =
        corpus.keys.map (fun item =>
          ((countVisits draws n.toNat item : ℕ) : ℚ) * (1 / (n : ℚ))) :=
      List.map_congr_left (fun item hitem => by rw [if_pos hitem]; ring)
    have hsum : (corpus.keys.map
        (fun item => ((countVisits draws n.toNat item : ℕ) : ℚ))).sum =
        ((corpus.keys.map (fun item => countVisits draws n.toNat item)).sum : ℚ) := by
      rw [Nat.cast_list_sum, List.map_map]
      rfl
    rw [hmap, List.sum_map_mul_right, hsum,
      sum_countVisits corpus draws n.toNat hk hdraws, hcast]
    field_simp
  · intro h1
    subst h1
    constructor
    · simp only [if_pos (hdraws 0)]
      norm_num [countVisits_one]
    · intro q hq hne'
      simp only [if_pos hq]
      rw [show (1 : ℤ).toNat = 1 from rfl, countVisits_one, if_neg (fun h => hne' h.symm)]
      norm_num

/-- C6 witness: corpus `{1: {2}, 2: {1}}`, damping `0.85`, `n = 1`, all
draws landing on page `1`. -/
theorem C6_witness :
    ∃ f, sample_pagerank ex2 (17 / 20) 1 exDraws = some f ∧
      (∀ item ∈ ex2.keys, f item = (countVisits exDraws (1 : ℤ).toNat item : ℚ) / (1 : ℤ)) ∧
      (ex2.keys.map f).sum = 1 ∧
      ((1 : ℤ) = 1 → f (exDraws 0) = 1 ∧
        ∀ q ∈ ex2.keys, q ≠ exDraws 0 → f q = 0) :=
  C6_sample_partition ex2 (17 / 20) 1 exDraws (by decide) (by decide)
    (by norm_num) (by norm_num) (by norm_num)
    (fun _ => show (1 : ℕ) ∈ [1, 2] by decide)

/-! ### Structural lemmas about the in-place sweep -/

lemma sweepList_append (corpus : Corpus) (d : ℚ) (l1 l2 : List ℕ) (v : ℕ → ℚ) :
    sweepList corpus d (l1 ++ l2) v =
      sweepList corpus d l2 (sweepList corpus d l1 v) := by
  unfold sweepList
  rw [List.foldl_append]

lemma sweepList_cons (corpus : Corpus) (d : ℚ) (a : ℕ) (t : List ℕ) (v : ℕ → ℚ) :
    sweepList corpus d (a :: t) v =
      sweepList corpus d t (Function.update v a (pageUpdate corpus d v a)) := by
  unfold sweepList
  rw [List.foldl_cons]

/-- Pages the sweep has not processed keep their incoming value. -/
lemma sweepList_not_mem (corpus : Corpus) (d : ℚ) (order : List ℕ) (v : ℕ → ℚ)
    (q : ℕ) (hq : q ∉ order) :
    sweepList corpus d order v q = v q := by
  induction order generalizing v with
  | nil => rfl
  | cons a t ih =>
    rw [sweepList_cons, ih _ (fun h => hq (List.mem_cons_of_mem _ h)),
      Function.update_noteq
        (fun h : q = a => hq (by rw [h]; exact List.mem_cons_self a t))]

/-- The value the sweep assigns to `p` is the update computed from the
vector in which exactly the pages before `p` carry their new values. -/
lemma sweepList_split (corpus : Corpus) (d : ℚ) (l1 : List ℕ) (p : ℕ)
    (l2 : List ℕ) (v : ℕ → ℚ) (hp : p ∉ l2) :
    sweepList corpus d (l1 ++ p :: l2) v p =
      pageUpdate corpus d (sweepList corpus d l1 v) p := by
  rw [sweepList_append, sweepList_cons,
    sweepList_not_mem corpus d l2 _ p hp, Function.update_same]

/-- Already-processed pages are untouched by the rest of the sweep. -/
lemma sweepList_processed (corpus : Corpus) (d : ℚ) (l1 l2 : List ℕ)
    (v : ℕ → ℚ) (q : ℕ) (hq : q ∉ l2) :
    sweepList corpus d (l1 ++ l2) v q = sweepList corpus d l1 v q := by
  rw [sweepList_append, sweepList_not_mem corpus d l2 _ q hq]

lemma iterLoop_succ (corpus : Corpus) (d : ℚ) (fuel : ℕ) (v prev : ℕ → ℚ) :
    iterLoop corpus d (fuel + 1) v prev =
      if maxDiff corpus (sweep corpus d v) prev < 1 / 1000
      then some (sweep corpus d v)
      else iterLoop corpus d fuel (sweep corpus d v) (sweep corpus d v) := rfl

/-- The initial vector of `iterate_pagerank` on the two-page example. -/
def exInit : ℕ → ℚ := fun item => if item ∈ ex2.keys then (1 : ℚ) / csize ex2 else 0

/-- C3 (corrected, counterexample): on `{1: {2}, 2: {1}}` with damping
`0.85`, the first sweep of `iterate_pagerank` assigns page `2` the value
`0.63875`, computed from page `1`'s value already updated in the same
sweep, whereas the update computed from the previous (initial) vector
alone would be `0.575`. -/
theorem C3_counterexample :
    sweep ex2 (17 / 20) exInit 2 = 511 / 800 ∧
    pageUpdate ex2 (17 / 20) exInit 2 = 23 / 40 ∧
    (511 / 800 : ℚ) ≠ 23 / 40 := by
  refine ⟨?_, ?_, by norm_num⟩
  · norm_num [sweep, sweepList, pageUpdate, rankSum, ex2, exInit, csize,
      Function.update]
  · norm_num [pageUpdate, rankSum, ex2, exInit, csize]

/-- C3 (amended): the iteration is in place (Gauss–Seidel), not
synchronous: within a sweep, the update of the page at any position reads
the vector in which all earlier pages of the sweep already hold their new
values.  The loop stops exactly when the maximum absolute per-page
difference between the just-computed vector and the vector recorded at the
previous check (the all-zero vector at the first check, the previous
sweep's result afterwards) falls below the threshold `0.001`. -/
theorem C3_gauss_seidel (corpus : Corpus) (d : ℚ) :
    (∀ (v : ℕ → ℚ) (l1 : List ℕ) (p : ℕ) (l2 : List ℕ),
      corpus.keys = l1 ++ p :: l2 → corpus.keys.Nodup →
      sweep corpus d v p = pageUpdate corpus d (sweepList corpus d l1 v) p) ∧
    (∀ (fuel : ℕ) (v prev : ℕ → ℚ),
      (maxDiff corpus (sweep corpus d v) prev < 1 / 1000 →
        iterLoop corpus d (fuel + 1) v prev = some (sweep corpus d v)) ∧
      (¬ maxDiff corpus (sweep corpus d v) prev < 1 / 1000 →
        iterLoop corpus d (fuel + 1) v prev =
          iterLoop corpus d fuel (sweep corpus d v) (sweep corpus d v))) := by
  constructor
  · intro v l1 p l2 hsplit hnodup
    have hp : p ∉ l2 := by
      rw [hsplit] at hnodup
      exact (List.nodup_cons.mp (List.nodup_append.mp hnodup).2.1).1
    unfold sweep
    rw [hsplit, sweepList_split corpus d l1 p l2 v hp]
  · intro fuel v prev
    constructor
    · intro h
      rw [iterLoop_succ, if_pos h]
    · intro h
      rw [iterLoop_succ, if_neg h]

/-- C3 witness: on `{1: {2}, 2: {1}}`, the first sweep's value for page `2`
(which sits after page `1`) is the update read off the vector with page `1`
already updated. -/
theorem C3_witness :
    sweep ex2 (17 / 20) exInit 2 =
      pageUpdate ex2 (17 / 20) (sweepList ex2 (17 / 20) [1] exInit) 2 :=
  (C3_gauss_seidel ex2 (17 / 20)).1 exInit [1] 2 [] rfl (by decide)

/-- C2 (corrected, counterexample): on `{1: {2}, 2: {1}}` with damping
`0.85`, the very first per-page update of `iterate_pagerank` (page `1`,
computed from the initial vector, which both readings share) is
`0.15 + 0.85 * 0.5 = 0.575`, not the value `0.15/2 + 0.85 * 0.5 = 0.5` of
the claimed recurrence `(1-damping)/N + damping * sum(...)`. -/
theorem C2_counterexample :
    pageUpdate ex2 (17 / 20) exInit 1 = 23 / 40 ∧
    specUpdate ex2 (17 / 20) exInit 1 = 1 / 2 ∧
    (23 / 40 : ℚ) ≠ 1 / 2 := by
  refine ⟨?_, ?_, by norm_num⟩
  · norm_num [pageUpdate, rankSum, ex2, exInit, csize]
  · norm_num [specUpdate, ex2, exInit, csize]

/-- C2 (amended): each per-page update performed by the iteration is the
`N`-scaled form of the spec's recurrence: the assigned value is
`(1 - damping) + damping * rank`, which equals `N` times the recurrence
`(1-damping)/N + damping * sum(rank(q)/outdegree(q))` (dangling pages
contributing `rank(q)/N`) evaluated on the working vector divided by `N`;
the final division of the converged vector by `N` returns the result to
the spec's scale.  (Within a sweep the working vector is the in-place,
partially updated one.) -/
theorem C2_scaled_recurrence (corpus : Corpus) (d : ℚ) (v : ℕ → ℚ) (page : ℕ)
    (hne : corpus.keys ≠ []) :
    pageUpdate corpus d v page =
      csize corpus * specUpdate corpus d (fun q => v q / csize corpus) page := by
  have hN : (csize corpus : ℚ) ≠ 0 := csize_cast_ne_zero corpus hne
  unfold pageUpdate specUpdate
  have hsum : rankSum corpus v page =
      (csize corpus : ℚ) * (corpus.keys.map (fun q =>
        if (corpus.links q).length = 0 then (v q / csize corpus) / csize corpus
        else if page ∈ corpus.links q then (v q / csize corpus) / (corpus.links q).length
        else 0)).sum := by
    unfold rankSum
    rw [← List.sum_map_mul_left]
    refine congrArg List.sum (List.map_congr_left fun q _ => ?_)
    by_cases hlen : (corpus.links q).length = 0
    · have hmem : page ∉ corpus.links q := by
        rw [List.length_eq_zero.mp hlen]
        exact List.not_mem_nil page
      rw [if_pos hlen, if_pos hlen, if_neg hmem]
      field_simp
      ring
    · rw [if_neg hlen, if_neg hlen]
      by_cases hmem : page ∈ corpus.links q
      · rw [if_pos hmem, if_pos hmem]
        field_simp
        ring
      · rw [if_neg hmem, if_neg hmem]
        simp
  rw [hsum]
  field_simp
  ring

/-- C2 witness: the scaled-recurrence identity at the concrete first update
on `{1: {2}, 2: {1}}`. -/
theorem C2_witness :
    pageUpdate ex2 (17 / 20) exInit 1 =
      csize ex2 * specUpdate ex2 (17 / 20) (fun q => exInit q / csize ex2) 1 :=
  C2_scaled_recurrence ex2 (17 / 20) exInit 1 (by decide)

/-! ### Determinism of the iterative estimator -/

lemma rankSum_congr (c1 c2 : Corpus) (hk : c1.keys = c2.keys)
    (hl : ∀ p ∈ c1.keys, c1.links p = c2.links p) (v : ℕ → ℚ) (page : ℕ) :
    rankSum c1 v page = rankSum c2 v page := by
  unfold rankSum csize
  rw [← hk]
  exact congrArg List.sum (List.map_congr_left fun key hkey => by rw [hl key hkey, hk])

lemma pageUpdate_congr (c1 c2 : Corpus) (hk : c1.keys = c2.keys)
    (hl : ∀ p ∈ c1.keys, c1.links p = c2.links p) (d : ℚ) (v : ℕ → ℚ) (page : ℕ) :
    pageUpdate c1 d v page = pageUpdate c2 d v page := by
  unfold pageUpdate
  rw [rankSum_congr c1 c2 hk hl]

lemma sweepList_congr (c1 c2 : Corpus) (hk : c1.keys = c2.keys)
    (hl : ∀ p ∈ c1.keys, c1.links p = c2.links p) (d : ℚ) (order : List ℕ) :
    ∀ v : ℕ → ℚ, sweepList c1 d order v = sweepList c2 d order v := by
  induction order with
  | nil => intro v; rfl
  | cons a t ih =>
    intro v
    rw [sweepList_cons, sweepList_cons, pageUpdate_congr c1 c2 hk hl, ih]

lemma iterLoop_congr (c1 c2 : Corpus) (hk : c1.keys = c2.keys)
    (hl : ∀ p ∈ c1.keys, c1.links p = c2.links p) (d : ℚ) (fuel : ℕ) :
    ∀ v prev : ℕ → ℚ, iterLoop c1 d fuel v prev = iterLoop c2 d fuel v prev := by
  have hsweep : ∀ v, sweep c1 d v = sweep c2 d v := by
    intro v
    unfold sweep
    rw [sweepList_congr c1 c2 hk hl, hk]
  have hmax : ∀ v prev, maxDiff c1 v prev = maxDiff c2 v prev := by
    intro v prev
    unfold maxDiff
    rw [hk]
  induction fuel with
  | zero => intro v prev; rfl
  | succ m ih =>
    intro v prev
    rw [iterLoop_succ, iterLoop_succ, hsweep, hmax, ih]

/-- C9: `iterate_pagerank` is deterministic: it consumes no randomness, so
two calls on corpora with the same keys (in the same dict order) and the
same per-page link sets, with the same damping factor and fuel, return
identical rank vectors. -/
theorem C9_deterministic (c1 c2 : Corpus) (d : ℚ) (fuel : ℕ)
    (hk : c1.keys = c2.keys)
    (hl : ∀ p ∈ c1.keys, c1.links p = c2.links p) :
    iterate_pagerank c1 d fuel = iterate_pagerank c2 d fuel := by
  unfold iterate_pagerank csize
  rw [← hk]
  by_cases hne : c1.keys = []
  · rw [if_pos hne, if_pos hne]
  · rw [if_neg hne, if_neg hne, iterLoop_congr c1 c2 hk hl, hk]

/-- C9 witness: two calls with the same concrete arguments agree. -/
theorem C9_witness :
    iterate_pagerank ex2 (17 / 20) 100 = iterate_pagerank ex2 (17 / 20) 100 :=
  C9_deterministic ex2 ex2 (17 / 20) 100 rfl (fun _ _ => rfl)

/-! ### Termination of the iterative estimator

The loop body is a Gauss–Seidel sweep of the linear map with matrix `M`
below.  Its columns sum to at most `1`, and successive sweep differences
contract in the weighted `L1` norm `phi` whose weight at a page discounts
the part of its column read after the page is updated.  Geometric decay of
`phi` pushes the maximum per-page change below the `0.001` threshold. -/

/-- The coefficient with which `pagerank[q]` enters the accumulation for
`page` inside the sweep. -/
def M (corpus : Corpus) (page q : ℕ) : ℚ :=
  (if (corpus.links q).length = 0 then (1 : ℚ) / csize corpus else 0) +
  (if page ∈ corpus.links q then (1 : ℚ) / (corpus.links q).length else 0)

lemma M_nonneg (corpus : Corpus) (page q : ℕ) : 0 ≤ M corpus page q := by
  unfold M
  have h1 : (0 : ℚ) ≤ if (corpus.links q).length = 0
      then (1 : ℚ) / csize corpus else 0 := by
    split <;> positivity
  have h2 : (0 : ℚ) ≤ if page ∈ corpus.links q
      then (1 : ℚ) / (corpus.links q).length else 0 := by
    split <;> positivity
  linarith

lemma rankSum_eq_M (corpus : Corpus) (v : ℕ → ℚ) (page : ℕ) :
    rankSum corpus v page =
      (corpus.keys.map (fun q => M corpus page q * v q)).sum := by
  unfold rankSum M
  refine congrArg List.sum (List.map_congr_left fun q _ => ?_)
  by_cases hlen : (corpus.links q).length = 0
  · have hmem : page ∉ corpus.links q := by
      rw [List.length_eq_zero.mp hlen]
      exact List.not_mem_nil page
    rw [if_pos hlen, if_pos hlen, if_neg hmem, if_neg hmem]
    ring
  · rw [if_neg hlen, if_neg hlen]
    by_cases hmem : page ∈ corpus.links q
    · rw [if_pos hmem, if_pos hmem]
      ring
    · rw [if_neg hmem, if_neg hmem]
      ring

lemma list_map_sum_fin (l : List ℕ) (f : ℕ → ℚ) :
    (l.map f).sum = ∑ i : Fin l.length, f (l.get i) := by
  induction l with
  | nil => simp
  | cons a t ih =>
    rw [List.map_cons, List.sum_cons, ih]
    exact (Fin.sum_univ_succ
      (fun i : Fin (t.length + 1) => f ((a :: t).get i))).symm

/-- `rankSum` as a `Fin`-indexed sum over key positions. -/
lemma rankSum_eq_finsum (corpus : Corpus) (v : ℕ → ℚ) (page : ℕ) :
    rankSum corpus v page =
      ∑ j : Fin corpus.keys.length,
        M corpus page (corpus.keys.get j) * v (corpus.keys.get j) := by
  rw [rankSum_eq_M, list_map_sum_fin]

/-- In a duplicate-free list, the entry at position `j` lies in the prefix
of length `i` exactly when `j < i`. -/
lemma get_mem_take_iff (l : List ℕ) (hl : l.Nodup) (i : ℕ)
    (j : Fin l.length) : l.get j ∈ l.take i ↔ (j : ℕ) < i := by
  constructor
  · intro hmem
    by_contra hge
    push_neg at hge
    obtain ⟨k, hkeq⟩ := List.get_of_mem hmem
    have hki : (k : ℕ) < i := by
      have h2 := lt_of_lt_of_eq k.isLt (List.length_take i l)
      omega
    have hklen : (k : ℕ) < l.length := by omega
    have hget : l.get ⟨k, hklen⟩ = l.get j := by
      rw [← hkeq, List.get_eq_getElem, List.get_eq_getElem, List.getElem_take]
    have hkj : (⟨(k : ℕ), hklen⟩ : Fin l.length) = j := (hl.get_inj_iff).mp hget
    have hkval : (k : ℕ) = (j : ℕ) := congrArg Fin.val hkj
    omega
  · intro hlt
    have hmin : (j : ℕ) < (l.take i).length := by
      rw [List.length_take]
      exact lt_min hlt j.isLt
    have heq : (l.take i).get ⟨(j : ℕ), hmin⟩ = l.get j := by
      rw [List.get_eq_getElem, List.get_eq_getElem, List.getElem_take]
    rw [← heq]
    exact List.get_mem _ _ hmin

/-- Evaluating the partially executed sweep: positions before `i` carry the
final sweep value, the rest still carry the input. -/
lemma sweepList_take_eval (corpus : Corpus) (d : ℚ) (hk : corpus.keys.Nodup)
    (x : ℕ → ℚ) (i : ℕ) (j : Fin corpus.keys.length) :
    sweepList corpus d (corpus.keys.take i) x (corpus.keys.get j) =
      if (j : ℕ) < i then sweep corpus d x (corpus.keys.get j)
      else x (corpus.keys.get j) := by
  by_cases h : (j : ℕ) < i
  · rw [if_pos h]
    have hmem : corpus.keys.get j ∈ corpus.keys.take i :=
      (get_mem_take_iff corpus.keys hk i j).mpr h
    have hnotdrop : corpus.keys.get j ∉ corpus.keys.drop i := by
      intro hdrop
      have hnodup : (corpus.keys.take i ++ corpus.keys.drop i).Nodup := by
        rw [List.take_append_drop]
        exact hk
      exact (List.nodup_append.mp hnodup).2.2 hmem hdrop
    have := sweepList_processed corpus d (corpus.keys.take i)
      (corpus.keys.drop i) x (corpus.keys.get j) hnotdrop
    rw [List.take_append_drop] at this
    unfold sweep
    rw [← this]
  · rw [if_neg h]
    exact sweepList_not_mem corpus d _ x _
      (fun hmem => h ((get_mem_take_iff corpus.keys hk i j).mp hmem))

/-- The sweep's value at position `i` is the page update read off the
partially executed sweep of the first `i` positions. -/
lemma sweep_get_eq (corpus : Corpus) (d : ℚ) (hk : corpus.keys.Nodup)
    (x : ℕ → ℚ) (i : Fin corpus.keys.length) :
    sweep corpus d x (corpus.keys.get i) =
      pageUpdate corpus d (sweepList corpus d (corpus.keys.take i) x)
        (corpus.keys.get i) := by
  have hsplit : corpus.keys =
      corpus.keys.take i ++ corpus.keys.get i :: corpus.keys.drop (i + 1) := by
    rw [List.get_cons_drop, List.take_append_drop]
  have hnot : corpus.keys.get i ∉ corpus.keys.drop ((i : ℕ) + 1) := by
    intro hdrop
    have hnodup : (corpus.keys.take i ++
        corpus.keys.get i :: corpus.keys.drop ((i : ℕ) + 1)).Nodup := by
      rw [← hsplit]
      exact hk
    exact (List.nodup_cons.mp (List.nodup_append.mp hnodup).2.1).1 hdrop
  exact (congrArg (fun l => sweepList corpus d l x (corpus.keys.get i))
    hsplit).trans (sweepList_split corpus d _ _ _ x hnot)

/-- The part of column `j` of `M` read after page `j` has been updated in
the sweep (rows at later positions). -/
def colL (corpus : Corpus) (j : Fin corpus.keys.length) : ℚ :=
  ∑ i : Fin corpus.keys.length,
    if (j : ℕ) < (i : ℕ)
    then M corpus (corpus.keys.get i) (corpus.keys.get j) else 0

/-- The part of column `j` of `M` read before or at page `j`'s own update. -/
def colU (corpus : Corpus) (j : Fin corpus.keys.length) : ℚ :=
  ∑ i : Fin corpus.keys.length,
    if ¬ (j : ℕ) < (i : ℕ)
    then M corpus (corpus.keys.get i) (corpus.keys.get j) else 0

/-- The weight of position `j` in the contraction norm. -/
def wgt (corpus : Corpus) (d : ℚ) (j : Fin corpus.keys.length) : ℚ :=
  1 - d * colL corpus j

/-- Weighted `L1` distance between two rank vectors over the corpus keys. -/
def phi (corpus : Corpus) (d : ℚ) (x y : ℕ → ℚ) : ℚ :=
  ∑ j : Fin corpus.keys.length,
    wgt corpus d j * |x (corpus.keys.get j) - y (corpus.keys.get j)|

/-- Every column of `M` sums to at most `1` over the corpus rows. -/
lemma colsum_le_one (corpus : Corpus) (hk : corpus.keys.Nodup)
    (hne : corpus.keys ≠ []) (j : Fin corpus.keys.length) :
    ∑ i : Fin corpus.keys.length,
      M corpus (corpus.keys.get i) (corpus.keys.get j) ≤ 1 := by
  have hn : corpus.keys.length ≠ 0 := fun h => hne (List.length_eq_zero.mp h)
  have hnQ : ((corpus.keys.length : ℕ) : ℚ) ≠ 0 := Nat.cast_ne_zero.mpr hn
  set q := corpus.keys.get j with hq
  have hsplit : ∀ i : Fin corpus.keys.length,
      M corpus (corpus.keys.get i) q =
        (if (corpus.links q).length = 0 then (1 : ℚ) / csize corpus else 0) +
        (if corpus.keys.get i ∈ corpus.links q
          then (1 : ℚ) / (corpus.links q).length else 0) := fun i => rfl
  rw [Finset.sum_congr rfl (fun i _ => hsplit i), Finset.sum_add_distrib]
  by_cases hlen : (corpus.links q).length = 0
  · have hA : ∑ _i : Fin corpus.keys.length,
        (if (corpus.links q).length = 0 then (1 : ℚ) / csize corpus else 0) =
        corpus.keys.length * ((1 : ℚ) / csize corpus) := by
      rw [Finset.sum_const, Finset.card_univ, Fintype.card_fin, nsmul_eq_mul]
      rw [if_pos hlen]
    have hB : ∑ i : Fin corpus.keys.length,
        (if corpus.keys.get i ∈ corpus.links q
          then (1 : ℚ) / (corpus.links q).length else 0) = 0 := by
      refine Finset.sum_eq_zero fun i _ => ?_
      rw [if_neg]
      intro hmem
      rw [List.length_eq_zero.mp hlen] at hmem
      exact List.not_mem_nil _ hmem
    rw [hA, hB]
    unfold csize
    rw [mul_one_div, div_self hnQ]
    norm_num
  · have hA : ∑ _i : Fin corpus.keys.length,
        (if (corpus.links q).length = 0 then (1 : ℚ) / csize corpus else 0) = 0 := by
      refine Finset.sum_eq_zero fun i _ => ?_
      rw [if_neg hlen]
    have hcard : (Finset.univ.filter
        (fun i : Fin corpus.keys.length => corpus.keys.get i ∈ corpus.links q)).card ≤
        (corpus.links q).length := by
      refine le_trans (Finset.card_le_card_of_injOn (fun i => corpus.keys.get i)
        (fun i hi => List.mem_toFinset.mpr (Finset.mem_filter.mp hi).2) ?_)
        (corpus.links q).toFinset_card_le
      intro i _ k _ hik
      exact hk.get_inj_iff.mp hik
    have hB : ∑ i : Fin corpus.keys.length,
        (if corpus.keys.get i ∈ corpus.links q
          then (1 : ℚ) / (corpus.links q).length else 0) ≤ 1 := by
      rw [← Finset.sum_filter, Finset.sum_const, nsmul_eq_mul]
      have hlenQ : (0 : ℚ) < ((corpus.links q).length : ℚ) := by
        have : 0 < (corpus.links q).length := Nat.pos_of_ne_zero hlen
        exact_mod_cast this
      rw [mul_one_div, div_le_one hlenQ]
      exact_mod_cast hcard
    rw [hA]
    linarith

lemma colL_nonneg (corpus : Corpus) (j : Fin corpus.keys.length) :
    0 ≤ colL corpus j := by
  refine Finset.sum_nonneg fun i _ => ?_
  split
  · exact M_nonneg corpus _ _
  · exact le_refl 0

lemma colU_nonneg (corpus : Corpus) (j : Fin corpus.keys.length) :
    0 ≤ colU corpus j := by
  refine Finset.sum_nonneg fun i _ => ?_
  split
  · exact M_nonneg corpus _ _
  · exact le_refl 0

lemma colL_add_colU (corpus : Corpus) (j : Fin corpus.keys.length) :
    colL corpus j + colU corpus j =
      ∑ i : Fin corpus.keys.length,
        M corpus (corpus.keys.get i) (corpus.keys.get j) := by
  unfold colL colU
  rw [← Finset.sum_add_distrib]
  refine Finset.sum_congr rfl fun i _ => ?_
  by_cases h : (j : ℕ) < (i : ℕ)
  · rw [if_pos h, if_neg (not_not_intro h), add_zero]
  · rw [if_neg h, if_pos h, zero_add]

lemma colL_le_one (corpus : Corpus) (hk : corpus.keys.Nodup)
    (hne : corpus.keys ≠ []) (j : Fin corpus.keys.length) :
    colL corpus j ≤ 1 := by
  have h := colsum_le_one corpus hk hne j
  have h2 := colL_add_colU corpus j
  have h3 := colU_nonneg corpus j
  linarith

lemma wgt_ge (corpus : Corpus) (d : ℚ) (hk : corpus.keys.Nodup)
    (hne : corpus.keys ≠ []) (hd0 : 0 ≤ d) (hd1 : d ≤ 1)
    (j : Fin corpus.keys.length) : 1 - d ≤ wgt corpus d j := by
  unfold wgt
  have h1 : d * colL corpus j ≤ d * 1 :=
    mul_le_mul_of_nonneg_left (colL_le_one corpus hk hne j) hd0
  linarith

lemma colU_le_wgt (corpus : Corpus) (d : ℚ) (hk : corpus.keys.Nodup)
    (hne : corpus.keys ≠ []) (hd0 : 0 ≤ d) (hd1 : d ≤ 1)
    (j : Fin corpus.keys.length) : colU corpus j ≤ wgt corpus d j := by
  unfold wgt
  have h1 := colsum_le_one corpus hk hne j
  have h2 := colL_add_colU corpus j
  have h3 := colL_nonneg corpus j
  have h4 : d * colL corpus j ≤ colL corpus j := by
    have := mul_le_mul_of_nonneg_right hd1 h3
    linarith
  linarith

/-- Pointwise Gauss–Seidel bound: the change of position `i` under one
sweep is at most `d` times the `M`-weighted mix of the *new* differences at
earlier positions and the *old* differences at the remaining positions. -/
lemma sweep_diff_bound (corpus : Corpus) (d : ℚ) (hk : corpus.keys.Nodup)
    (hd0 : 0 ≤ d) (x y : ℕ → ℚ) (i : Fin corpus.keys.length) :
    |sweep corpus d x (corpus.keys.get i) - sweep corpus d y (corpus.keys.get i)| ≤
      d * ∑ j : Fin corpus.keys.length,
        M corpus (corpus.keys.get i) (corpus.keys.get j) *
          (if (j : ℕ) < (i : ℕ)
            then |sweep corpus d x (corpus.keys.get j) -
                  sweep corpus d y (corpus.keys.get j)|
            else |x (corpus.keys.get j) - y (corpus.keys.get j)|) := by
  rw [sweep_get_eq corpus d hk x i, sweep_get_eq corpus d hk y i]
  set w1 := sweepList corpus d (corpus.keys.take i) x with hw1
  set w2 := sweepList corpus d (corpus.keys.take i) y with hw2
  have hdiff : pageUpdate corpus d w1 (corpus.keys.get i) -
      pageUpdate corpus d w2 (corpus.keys.get i) =
      d * ∑ j : Fin corpus.keys.length,
        M corpus (corpus.keys.get i) (corpus.keys.get j) *
          (w1 (corpus.keys.get j) - w2 (corpus.keys.get j)) := by
    unfold pageUpdate
    rw [rankSum_eq_finsum, rankSum_eq_finsum]
    have hC : (∑ j : Fin corpus.keys.length,
          M corpus (corpus.keys.get i) (corpus.keys.get j) * w1 (corpus.keys.get j)) -
        (∑ j : Fin corpus.keys.length,
          M corpus (corpus.keys.get i) (corpus.keys.get j) * w2 (corpus.keys.get j)) =
        ∑ j : Fin corpus.keys.length,
          M corpus (corpus.keys.get i) (corpus.keys.get j) *
            (w1 (corpus.keys.get j) - w2 (corpus.keys.get j)) := by
      rw [← Finset.sum_sub_distrib]
      exact Finset.sum_congr rfl fun j _ => (mul_sub _ _ _).symm
    rw [← hC]
    ring
  rw [hdiff, abs_mul, abs_of_nonneg hd0]
  refine mul_le_mul_of_nonneg_left ?_ hd0
  refine le_trans (Finset.abs_sum_le_sum_abs _ _) ?_
  refine Finset.sum_le_sum fun j _ => ?_
  rw [abs_mul, abs_of_nonneg (M_nonneg corpus _ _)]
  refine mul_le_mul_of_nonneg_left ?_ (M_nonneg corpus _ _)
  rw [hw1, hw2, sweepList_take_eval corpus d hk x i j,
    sweepList_take_eval corpus d hk y i j]
  by_cases h : (j : ℕ) < (i : ℕ)
  · rw [if_pos h, if_pos h, if_pos h]
  · rw [if_neg h, if_neg h, if_neg h]

/-- One sweep contracts the weighted `L1` distance by the damping factor. -/
lemma phi_sweep_contract (corpus : Corpus) (d : ℚ) (hk : corpus.keys.Nodup)
    (hne : corpus.keys ≠ []) (hd0 : 0 ≤ d) (hd1 : d ≤ 1) (x y : ℕ → ℚ) :
    phi corpus d (sweep corpus d x) (sweep corpus d y) ≤ d * phi corpus d x y := by
  classical
  set n := corpus.keys.length with hn
  set pg := corpus.keys.get with hpg
  set dl := fun j : Fin n =>
    |sweep corpus d x (pg j) - sweep corpus d y (pg j)| with hdl
  set ep := fun j : Fin n => |x (pg j) - y (pg j)| with hep
  have habs_nonneg : ∀ j, 0 ≤ dl j := fun j => abs_nonneg _
  have hep_nonneg : ∀ j, 0 ≤ ep j := fun j => abs_nonneg _
  have hstep : ∑ j : Fin n, dl j ≤
      d * ∑ j : Fin n, (colL corpus j * dl j + colU corpus j * ep j) := by
    have h1 : ∑ i : Fin n, dl i ≤
        d * ∑ i : Fin n, ∑ j : Fin n,
          M corpus (pg i) (pg j) *
            (if (j : ℕ) < (i : ℕ) then dl j else ep j) := by
      rw [Finset.mul_sum]
      refine Finset.sum_le_sum fun i _ => ?_
      exact sweep_diff_bound corpus d hk hd0 x y i
    have h2 : ∑ i : Fin n, ∑ j : Fin n,
        M corpus (pg i) (pg j) * (if (j : ℕ) < (i : ℕ) then dl j else ep j) =
        ∑ j : Fin n, (colL corpus j * dl j + colU corpus j * ep j) := by
      rw [Finset.sum_comm]
      refine Finset.sum_congr rfl fun j _ => ?_
      have h3 : ∀ i : Fin n,
          M corpus (pg i) (pg j) * (if (j : ℕ) < (i : ℕ) then dl j else ep j) =
          (if (j : ℕ) < (i : ℕ) then M corpus (pg i) (pg j) else 0) * dl j +
          (if ¬ (j : ℕ) < (i : ℕ) then M corpus (pg i) (pg j) else 0) * ep j := by
        intro i
        by_cases h : (j : ℕ) < (i : ℕ)
        · rw [if_pos h, if_pos h, if_neg (not_not_intro h)]
          ring
        · rw [if_neg h, if_neg h, if_pos h]
          ring
      rw [Finset.sum_congr rfl (fun i _ => h3 i), Finset.sum_add_distrib,
        ← Finset.sum_mul, ← Finset.sum_mul]
      rfl
    rw [← h2]
    exact h1
  have hphile : phi corpus d (sweep corpus d x) (sweep corpus d y) ≤
      ∑ j : Fin n, d * colU corpus j * ep j := by
    have hexp : phi corpus d (sweep corpus d x) (sweep corpus d y) =
        ∑ j : Fin n, (dl j - d * colL corpus j * dl j) := by
      unfold phi wgt
      refine Finset.sum_congr rfl fun j _ => ?_
      ring
    have hsub : ∑ j : Fin n, (dl j - d * colL corpus j * dl j) =
        (∑ j : Fin n, dl j) - ∑ j : Fin n, d * colL corpus j * dl j :=
      Finset.sum_sub_distrib
    have hdistr : d * ∑ j : Fin n, (colL corpus j * dl j + colU corpus j * ep j) =
        (∑ j : Fin n, d * colL corpus j * dl j) +
        ∑ j : Fin n, d * colU corpus j * ep j := by
      rw [Finset.mul_sum, ← Finset.sum_add_distrib]
      refine Finset.sum_congr rfl fun j _ => ?_
      ring
    rw [hexp, hsub]
    rw [hdistr] at hstep
    linarith
  refine le_trans hphile ?_
  have hfinal : ∑ j : Fin n, d * colU corpus j * ep j ≤
      ∑ j : Fin n, d * (wgt corpus d j * ep j) := by
    refine Finset.sum_le_sum fun j _ => ?_
    rw [← mul_assoc]
    refine mul_le_mul_of_nonneg_right ?_ (hep_nonneg j)
    exact mul_le_mul_of_nonneg_left (colU_le_wgt corpus d hk hne hd0 hd1 j) hd0
  refine le_trans hfinal ?_
  rw [← Finset.mul_sum]
  exact le_of_eq rfl

lemma phi_nonneg (corpus : Corpus) (d : ℚ) (hk : corpus.keys.Nodup)
    (hne : corpus.keys ≠ []) (hd0 : 0 ≤ d) (hd1 : d ≤ 1) (x y : ℕ → ℚ) :
    0 ≤ phi corpus d x y := by
  refine Finset.sum_nonneg fun j _ => mul_nonneg ?_ (abs_nonneg _)
  have := wgt_ge corpus d hk hne hd0 hd1 j
  linarith

lemma foldr_max_lt (l : List ℚ) (c : ℚ) (hc : 0 < c)
    (h : ∀ a ∈ l, a < c) : l.foldr max 0 < c := by
  induction l with
  | nil => exact hc
  | cons a t ih =>
    rw [List.foldr_cons]
    exact max_lt (h a (List.mem_cons_self a t))
      (ih fun b hb => h b (List.mem_cons_of_mem a hb))

/-- If the weighted distance is below `(1 - d)/1000`, every per-page change
is below the `0.001` threshold. -/
lemma maxDiff_lt_of_phi (corpus : Corpus) (d : ℚ) (hk : corpus.keys.Nodup)
    (hne : corpus.keys ≠ []) (hd0 : 0 ≤ d) (hd1 : d < 1) (x y : ℕ → ℚ)
    (h : phi corpus d x y < (1 - d) / 1000) :
    maxDiff corpus x y < 1 / 1000 := by
  unfold maxDiff
  refine foldr_max_lt _ _ (by norm_num) ?_
  intro a ha
  obtain ⟨k, hkmem, rfl⟩ := List.mem_map.mp ha
  obtain ⟨j, hj⟩ := List.get_of_mem hkmem
  have hsingle : ∀ f : Fin corpus.keys.length → ℚ,
      (∀ i, 0 ≤ f i) → f j ≤ ∑ i : Fin corpus.keys.length, f i :=
    fun f hf => Finset.single_le_sum (fun i _ => hf i) (Finset.mem_univ j)
  have hterm : wgt corpus d j *
      |x (corpus.keys.get j) - y (corpus.keys.get j)| ≤ phi corpus d x y := by
    refine hsingle (fun i => wgt corpus d i *
      |x (corpus.keys.get i) - y (corpus.keys.get i)|) fun i => ?_
    refine mul_nonneg ?_ (abs_nonneg _)
    have := wgt_ge corpus d hk hne hd0 (le_of_lt hd1) i
    linarith
  have hwge : 1 - d ≤ wgt corpus d j :=
    wgt_ge corpus d hk hne hd0 (le_of_lt hd1) j
  have h1d : (0 : ℚ) < 1 - d := by linarith
  have habs : |x (corpus.keys.get j) - y (corpus.keys.get j)| < 1 / 1000 := by
    by_contra hge
    push_neg at hge
    have h2 : (1 - d) * (1 / 1000) ≤ (1 - d) *
        |x (corpus.keys.get j) - y (corpus.keys.get j)| :=
      mul_le_mul_of_nonneg_left hge (le_of_lt h1d)
    have h3 : (1 - d) * |x (corpus.keys.get j) - y (corpus.keys.get j)| ≤
        wgt corpus d j * |x (corpus.keys.get j) - y (corpus.keys.get j)| :=
      mul_le_mul_of_nonneg_right hwge (abs_nonneg _)
    have h4 : (1 - d) * (1 / 1000) = (1 - d) / 1000 := by ring
    linarith
  rw [hj] at habs
  rw [abs_sub_comm (y k) (x k)]
  exact habs

/-- Once the weighted distance between consecutive sweeps decays below
`(1 - d)/1000`, the loop returns within the corresponding fuel. -/
lemma iterLoop_isSome (corpus : Corpus) (d : ℚ) (hk : corpus.keys.Nodup)
    (hne : corpus.keys ≠ []) (hd0 : 0 ≤ d) (hd1 : d < 1) :
    ∀ (k : ℕ) (v : ℕ → ℚ),
      d ^ k * phi corpus d (sweep corpus d v) v < (1 - d) / 1000 →
      (iterLoop corpus d (k + 1) v v).isSome = true := by
  intro k
  induction k with
  | zero =>
    intro v hv
    rw [pow_zero, one_mul] at hv
    have hcond : maxDiff corpus (sweep corpus d v) v < 1 / 1000 :=
      maxDiff_lt_of_phi corpus d hk hne hd0 hd1 _ _ hv
    rw [iterLoop_succ, if_pos hcond]
    rfl
  | succ m ih =>
    intro v hv
    rw [iterLoop_succ]
    by_cases hcond : maxDiff corpus (sweep corpus d v) v < 1 / 1000
    · rw [if_pos hcond]
      rfl
    · rw [if_neg hcond]
      refine ih (sweep corpus d v) ?_
      have hcontract : phi corpus d (sweep corpus d (sweep corpus d v))
          (sweep corpus d v) ≤ d * phi corpus d (sweep corpus d v) v :=
        phi_sweep_contract corpus d hk hne hd0 (le_of_lt hd1) _ _
      have hpow : (0 : ℚ) ≤ d ^ m := pow_nonneg hd0 m
      have h2 : d ^ m * phi corpus d (sweep corpus d (sweep corpus d v))
          (sweep corpus d v) ≤ d ^ (m + 1) * phi corpus d (sweep corpus d v) v := by
        have h3 := mul_le_mul_of_nonneg_left hcontract hpow
        have h4 : d ^ m * (d * phi corpus d (sweep corpus d v) v) =
            d ^ (m + 1) * phi corpus d (sweep corpus d v) v := by ring
        linarith
      exact lt_of_le_of_lt h2 hv

/-- The initial rank vector of `iterate_pagerank`: `1/N` on every key. -/
def initVec (corpus : Corpus) : ℕ → ℚ :=
  fun item => if item ∈ corpus.keys then (1 : ℚ) / csize corpus else 0

lemma iterate_pagerank_eq (corpus : Corpus) (d : ℚ) (fuel : ℕ)
    (hne : corpus.keys ≠ []) :
    iterate_pagerank corpus d fuel =
      (iterLoop corpus d fuel (initVec corpus) (fun _ => 0)).map
        (fun v : ℕ → ℚ => fun item =>
          if item ∈ corpus.keys then v item / (csize corpus : ℚ) else 0) := by
  unfold iterate_pagerank initVec
  rw [if_neg hne]

/-- C7: for every non-empty corpus with distinct keys and every damping
factor in `[0,1)`, the `while True` loop of `iterate_pagerank` reaches an
iteration whose maximum absolute per-page change falls below `0.001` and
returns, despite having no iteration cap: some finite fuel suffices. -/
theorem C7_iterate_terminates (corpus : Corpus) (d : ℚ)
    (hk : corpus.keys.Nodup) (hne : corpus.keys ≠ [])
    (hd0 : 0 ≤ d) (hd1 : d < 1) :
    ∃ fuel r, iterate_pagerank corpus d fuel = some r := by
  have h1d : (0 : ℚ) < 1 - d := by linarith
  set v1 := sweep corpus d (initVec corpus) with hv1
  set A := phi corpus d (sweep corpus d v1) v1 with hA
  have hA0 : 0 ≤ A :=
    phi_nonneg corpus d hk hne hd0 (le_of_lt hd1) _ _
  have hApos : (0 : ℚ) < A + 1 := by linarith
  obtain ⟨k, hkpow⟩ := exists_pow_lt_of_lt_one
    (show (0 : ℚ) < ((1 - d) / 1000) / (A + 1) by positivity) hd1
  have hdecay : d ^ k * A < (1 - d) / 1000 := by
    calc d ^ k * A ≤ d ^ k * (A + 1) :=
      mul_le_mul_of_nonneg_left (by linarith) (pow_nonneg hd0 k)
    _ < (((1 - d) / 1000) / (A + 1)) * (A + 1) :=
      mul_lt_mul_of_pos_right hkpow hApos
    _ = (1 - d) / 1000 := div_mul_cancel₀ _ (ne_of_gt hApos)
  have htail : (iterLoop corpus d (k + 1) v1 v1).isSome = true :=
    iterLoop_isSome corpus d hk hne hd0 hd1 k v1 hdecay
  have hloop : (iterLoop corpus d (k + 2) (initVec corpus)
      (fun _ => 0)).isSome = true := by
    rw [iterLoop_succ]
    by_cases hcond : maxDiff corpus (sweep corpus d (initVec corpus))
        (fun _ => 0) < 1 / 1000
    · rw [if_pos hcond]
      rfl
    · rw [if_neg hcond]
      exact htail
  obtain ⟨w, hw⟩ := Option.isSome_iff_exists.mp hloop
  refine ⟨k + 2, fun item =>
    if item ∈ corpus.keys then w item / csize corpus else 0, ?_⟩
  rw [iterate_pagerank_eq corpus d (k + 2) hne, hw]
  rfl

/-- C7 witness: the iteration terminates on `{1: {2}, 2: {1}}` with the
reference damping factor `0.85`. -/
theorem C7_witness : ∃ fuel r, iterate_pagerank ex2 (17 / 20) fuel = some r :=
  C7_iterate_terminates ex2 (17 / 20) (by decide) (by decide)
    (by norm_num) (by norm_num)

/-! ### Absence of input validation -/

/-- A one-page corpus with a dangling page: `{1: {}}`. -/
def exSingle : Corpus := ⟨[1], fun _ => []⟩

/-- C4 (corrected, counterexample): called with the invalid sample count
`n = -1` on the valid corpus `{1: {2}, 2: {1}}`, `sample_pagerank` returns
normally instead of failing. -/
theorem C4_counterexample :
    (sample_pagerank ex2 (17 / 20) (-1) exDraws).isSome = true := rfl

/-- C4 (amended): neither function validates its inputs at entry, whatever
the damping factor.  `sample_pagerank` with `n < 0` runs the sampling loop
zero times and returns an all-zero rank vector normally; with `n = 0` it
fails only at the final `value / n` division (ZeroDivisionError); with an
empty corpus it raises an uncaught IndexError at the initial
`random.choice`.  `iterate_pagerank` with an empty corpus raises an
uncaught ValueError at the first `max([])` convergence check (the `1/N`
initialization loop body never runs) rather than performing a descriptive
entry check.  A damping factor outside `[0,1]` is accepted by both
functions: every conjunct below holds for arbitrary `d`, and
`iterate_pagerank` on `{1: {}}` with damping `2` returns the rank vector
`{1: 1.0}` normally. -/
theorem C4_no_validation (corpus : Corpus) (d : ℚ) (draws : ℕ → ℕ) (n : ℤ) :
    (corpus.keys ≠ [] → n < 0 →
      ∃ f, sample_pagerank corpus d n draws = some f ∧ ∀ item, f item = 0) ∧
    (n = 0 → sample_pagerank corpus d n draws = none) ∧
    (corpus.keys = [] → sample_pagerank corpus d n draws = none) ∧
    (∀ fuel, corpus.keys = [] → iterate_pagerank corpus d fuel = none) ∧
    (∃ f, iterate_pagerank exSingle 2 2 = some f ∧ f 1 = 1) := by
  refine ⟨?_, ?_, ?_, ?_, ?_⟩
  · intro hne hn
    have hn0 : n ≠ 0 := by omega
    have htn : n.toNat = 0 := Int.toNat_of_nonpos (by omega)
    refine ⟨_, by unfold sample_pagerank; rw [if_neg hne, if_neg hn0], ?_⟩
    intro item
    by_cases h : item ∈ corpus.keys
    · rw [if_pos h, htn, countVisits_zero]
      norm_num
    · rw [if_neg h]
  · intro h
    unfold sample_pagerank
    rw [h]
    simp
  · intro h
    unfold sample_pagerank
    rw [if_pos h]
  · intro fuel h
    unfold iterate_pagerank
    rw [if_pos h]
  · have hc1 : ¬ maxDiff exSingle (sweep exSingle 2 (initVec exSingle))
        (fun _ => 0) < 1 / 1000 := by
      norm_num [maxDiff, sweep, sweepList, pageUpdate, rankSum, initVec,
        exSingle, csize, Function.update]
    have hc2 : maxDiff exSingle
        (sweep exSingle 2 (sweep exSingle 2 (initVec exSingle)))
        (sweep exSingle 2 (initVec exSingle)) < 1 / 1000 := by
      norm_num [maxDiff, sweep, sweepList, pageUpdate, rankSum, initVec,
        exSingle, csize, Function.update]
    have hres : iterate_pagerank exSingle 2 2 =
        some (fun item => if item ∈ exSingle.keys
          then (sweep exSingle 2 (sweep exSingle 2 (initVec exSingle))) item /
            (csize exSingle : ℚ)
          else 0) := by
      rw [iterate_pagerank_eq exSingle 2 2 (by decide),
        show (2 : ℕ) = 1 + 1 from rfl, iterLoop_succ, if_neg hc1,
        show (1 : ℕ) = 0 + 1 from rfl, iterLoop_succ, if_pos hc2]
      rfl
    refine ⟨_, hres, ?_⟩
    norm_num [sweep, sweepList, pageUpdate, rankSum, initVec, exSingle,
      csize, Function.update]

/-- C4 witness: concrete normal return with `n = -1` on `{1: {2}, 2: {1}}`. -/
theorem C4_witness :
    ∃ f, sample_pagerank ex2 (17 / 20) (-1) exDraws = some f ∧ ∀ item, f item = 0 :=
  (C4_no_validation ex2 (17 / 20) exDraws (-1)).1 (by decide) (by norm_num)

end PageRank
